import Mathlib

/-
  Verification of the cppgo sequence-algorithm library (package `algorithm`,
  with the auxiliary `utility.Pair`).

  Embedding conventions.
  A Go slice is modelled as a total map `r : Nat → α` together with the
  half-open position range `[first, last)` every algorithm receives; all
  indexing performed by the source stays inside ranges the claims declare
  valid, so totalising the map loses nothing.  A Go `for` loop whose guard is
  `i != last` (with `i` only incremented) runs exactly `last - i₀` times on a
  valid range, and is embedded as structural recursion on that iteration
  count.  The two loops whose step is not a plain increment — the binary
  search in `LowerBound`/`UpperBound` and the interleaved outer/inner walk of
  `SearchN` — are embedded with an explicit fuel parameter large enough that,
  on valid ranges, the fuel can never run out before the Go guard stops the
  loop (the gap shrinks by at least one per step in the first case, and every
  step either advances `first` or returns in the second).  The recursive
  `Rotate` is embedded with fuel as well, returning `none` on exhaustion, so
  that its termination for valid ranges is a provable statement rather than a
  modelling assumption.  In-place writes `r[i] = v` become pointwise
  functional update, and `IterSwap(&r[a], &r[b])` becomes the simultaneous
  two-point update `swapFn`.
-/

namespace Cppgo

/-- The two-field generic container from `utility/utility.go`. -/
structure Pair (T1 T2 : Type) where
  first : T1
  second : T2
deriving DecidableEq, Repr

/-- `utility.MakePair`. -/
def MakePair {T1 T2 : Type} (t : T1) (u : T2) : Pair T1 T2 := ⟨t, u⟩

variable {α : Type}

/-- Pointwise functional update: the slice write `r[i] = v`. -/
def updFn (r : Nat → α) (i : Nat) (v : α) : Nat → α :=
  fun x => if x = i then v else r x

/-- Simultaneous two-point exchange: `IterSwap(&r[a], &r[b])`
(`*a, *b = *b, *a`). -/
def swapFn (r : Nat → α) (a b : Nat) : Nat → α :=
  fun x => if x = a then r b else if x = b then r a else r x

/-- The contents of the range `r[first, last)` as a list. -/
def seg (r : Nat → α) (first last : Nat) : List α :=
  (List.range (last - first)).map (fun i => r (first + i))

/-- Concrete sequences for evaluation: a list read as a total map. -/
def ofl (l : List Int) : Nat → Int :=
  fun i => l.getD i 0

/-- Loop of `Find` (`for ; first != last; first++ { if r[first] == value
{ return first } }; return last`), as recursion on the iteration count
`last - first`; when the scan exhausts the range the returned position has
advanced to `last`. -/
def findLoop [DecidableEq α] (r : Nat → α) (value : α) : Nat → Nat → Nat
  | first, 0 => first
  | first, n + 1 => if r first = value then first else findLoop r value (first + 1) n

/-- `algorithm.Find` (linear version). -/
def Find [DecidableEq α] (r : Nat → α) (first last : Nat) (value : α) : Nat :=
  findLoop r value first (last - first)

/-- Loop of `FindIfNot` (`for ; first != last; first++ { if !q(r[first])
{ return first } }; return last`).  The first scanning loop of
`IsPartitioned` performs the identical computation (break at the first
element failing the predicate), so it is embedded by this same function. -/
def findIfNotLoop (r : Nat → α) (q : α → Bool) : Nat → Nat → Nat
  | first, 0 => first
  | first, n + 1 => if ¬ q (r first) then first else findIfNotLoop r q (first + 1) n

/-- `algorithm.FindIfNot`. -/
def FindIfNot (r : Nat → α) (first last : Nat) (q : α → Bool) : Nat :=
  findIfNotLoop r q first (last - first)

/-- Loop of `Remove`: `for i := first + 1; i != last; i++ { if r[i] == value
{ r[first] = r[i]; first++ } }`.  State is the array together with the write
cursor `first`; note the source compacts the elements that compare EQUAL to
`value`. -/
def removeLoop [DecidableEq α] (value : α) :
    (Nat → α) → Nat → Nat → Nat → (Nat → α) × Nat
  | r, first, _, 0 => (r, first)
  | r, first, i, n + 1 =>
    if r i = value then removeLoop value (updFn r first (r i)) (first + 1) (i + 1) n
    else removeLoop value r first (i + 1) n

/-- `algorithm.Remove`: returns the updated sequence and the returned new-end
position. -/
def Remove [DecidableEq α] (r : Nat → α) (first last : Nat) (value : α) :
    (Nat → α) × Nat :=
  let f := Find r first last value
  if f ≠ last then removeLoop value r f (f + 1) (last - (f + 1))
  else (r, f)

/-- Loop of `Mismatch`: `for first1 != last1 && r1[first1] == r1[first2]`.
The source's guard reads `r1` at BOTH positions (`r1[first2]`, not
`r2[first2]`); the embedding reproduces that exactly, which is why the `r2`
parameter is never read. -/
def mismatchLoop [DecidableEq α] (r1 r2 : Nat → α) : Nat → Nat → Nat → Pair Nat Nat
  | first1, first2, 0 => MakePair first1 first2
  | first1, first2, n + 1 =>
    if r1 first1 = r1 first2 then mismatchLoop r1 r2 (first1 + 1) (first2 + 1) n
    else MakePair first1 first2

/-- `algorithm.Mismatch`. -/
def Mismatch [DecidableEq α] (r1 r2 : Nat → α) (first1 last1 first2 : Nat) :
    Pair Nat Nat :=
  mismatchLoop r1 r2 first1 first2 (last1 - first1)

/-- Loop of `Mismatch2`: `for first1 != last1 && first2 != last2 &&
r1[first1] == r1[first2]` — again `r1[first2]` as in the source. -/
def mismatch2Loop [DecidableEq α] (r1 r2 : Nat → α) :
    Nat → Nat → Nat → Nat → Pair Nat Nat
  | first1, first2, 0, _ => MakePair first1 first2
  | first1, first2, _ + 1, 0 => MakePair first1 first2
  | first1, first2, n + 1, m + 1 =>
    if r1 first1 = r1 first2 then mismatch2Loop r1 r2 (first1 + 1) (first2 + 1) n m
    else MakePair first1 first2

/-- `algorithm.Mismatch2`. -/
def Mismatch2 [DecidableEq α] (r1 r2 : Nat → α) (first1 last1 first2 last2 : Nat) :
    Pair Nat Nat :=
  mismatch2Loop r1 r2 first1 first2 (last1 - first1) (last2 - first2)

/-- Loop of `Equal2`: `for first1 != last1 && first2 != last2 { if r1[first1]
!= r2[first2] { return false } ... }; return true` — the loop stops, and the
function returns `true`, as soon as EITHER range is exhausted. -/
def equal2Loop [DecidableEq α] (r1 r2 : Nat → α) : Nat → Nat → Nat → Nat → Bool
  | _, _, 0, _ => true
  | _, _, _ + 1, 0 => true
  | first1, first2, n + 1, m + 1 =>
    if r1 first1 ≠ r2 first2 then false
    else equal2Loop r1 r2 (first1 + 1) (first2 + 1) n m

/-- `algorithm.Equal2`. -/
def Equal2 [DecidableEq α] (r1 r2 : Nat → α) (first1 last1 first2 last2 : Nat) :
    Bool :=
  equal2Loop r1 r2 first1 first2 (last1 - first1) (last2 - first2)

/-- Loop of `EqualFunc2`, with the caller-supplied binary predicate. -/
def equalFunc2Loop (r1 r2 : Nat → α) (p : α → α → Bool) :
    Nat → Nat → Nat → Nat → Bool
  | _, _, 0, _ => true
  | _, _, _ + 1, 0 => true
  | first1, first2, n + 1, m + 1 =>
    if ¬ p (r1 first1) (r2 first2) then false
    else equalFunc2Loop r1 r2 p (first1 + 1) (first2 + 1) n m

/-- `algorithm.EqualFunc2`. -/
def EqualFunc2 (r1 r2 : Nat → α) (first1 last1 first2 last2 : Nat)
    (p : α → α → Bool) : Bool :=
  equalFunc2Loop r1 r2 p first1 first2 (last1 - first1) (last2 - first2)

/-- The binary-search loop of `LowerBound`: `for first < last-1 { if it :=
first + (last-first)/2; r[it] < value { first = it } else { last = it } };
return last`.  The gap `last - first` shrinks by at least one per iteration,
so fuel `last - first` can never be exhausted before the guard stops the
loop; all subtraction is on non-negative quantities, so `Nat` subtraction
agrees with the source's `int` arithmetic. -/
def lbLoop [LinearOrder α] (r : Nat → α) (value : α) : Nat → Nat → Nat → Nat
  | 0, _, last => last
  | fuel + 1, first, last =>
    if first < last - 1 then
      let it := first + (last - first) / 2
      if r it < value then lbLoop r value fuel it last
      else lbLoop r value fuel first it
    else last

/-- `algorithm.LowerBound` (binary-search version). -/
def LowerBound [LinearOrder α] (r : Nat → α) (first last : Nat) (value : α) : Nat :=
  lbLoop r value (last - first) first last

/-- The binary-search loop of `UpperBound`, identical to `lbLoop` except that
the descent test is `r[it] <= value`. -/
def ubLoop [LinearOrder α] (r : Nat → α) (value : α) : Nat → Nat → Nat → Nat
  | 0, _, last => last
  | fuel + 1, first, last =>
    if first < last - 1 then
      let it := first + (last - first) / 2
      if r it ≤ value then ubLoop r value fuel it last
      else ubLoop r value fuel first it
    else last

/-- `algorithm.UpperBound` (binary-search version). -/
def UpperBound [LinearOrder α] (r : Nat → α) (first last : Nat) (value : α) : Nat :=
  ubLoop r value (last - first) first last

/-- The interleaved control flow of `SearchN` as a fuelled state machine.
`Sum.inl first` is the head of an outer-loop iteration (`for ; first != last;
first++`); `Sum.inr (candidate, cur_count, first)` is the head of an
inner-loop iteration (`for cur_count := 1; ; cur_count++`), `first` being the
Go variable's current value.  Each fuelled step mirrors one iteration of the
source: the outer loop tests `first == last`, skips a non-matching element,
or enters the inner loop with `candidate = first`, `cur_count = 1`; the inner
loop returns `candidate` once `cur_count >= count`, increments `first`,
returns `last` when it reaches it, and on a mismatch breaks back to the outer
loop, whose `first++` update then lands at `first + 2`.  Every step either
advances `first` or returns, so fuel `2*(last-first) + 1` can never be
exhausted on a valid range (`lemma snRun_post` below is proved for any
sufficient fuel). -/
def snRun [DecidableEq α] (r : Nat → α) (value : α) (count : Int) (last : Nat) :
    Nat → Nat ⊕ (Nat × Int × Nat) → Nat
  | 0, _ => last
  | fuel + 1, Sum.inl first =>
    if first = last then last
    else if r first = value then snRun r value count last fuel (Sum.inr (first, 1, first))
    else snRun r value count last fuel (Sum.inl (first + 1))
  | fuel + 1, Sum.inr (candidate, cur_count, first) =>
    if count ≤ cur_count then candidate
    else if first + 1 = last then last
    else if r (first + 1) = value then
      snRun r value count last fuel (Sum.inr (candidate, cur_count + 1, first + 1))
    else snRun r value count last fuel (Sum.inl (first + 2))

/-- `algorithm.SearchN`: `count` keeps the source's signed type so that the
`count <= 0` early return is the literal Go test. -/
def SearchN [DecidableEq α] (r : Nat → α) (first last : Nat) (count : Int)
    (value : α) : Nat :=
  if count ≤ 0 then first
  else snRun r value count last (2 * (last - first) + 1) (Sum.inl first)

/-- Specification predicate for `SearchN`: position `i` starts a run of `c`
consecutive elements inside `[·, last)` all equal to `value`. -/
def RunAt (r : Nat → α) (value : α) (last c i : Nat) : Prop :=
  i + c ≤ last ∧ ∀ j, j < c → r (i + j) = value

/-- Loop of `Partition`: `for i := first + 1; i != last; i++ { if p(r[i])
{ IterSwap(&r[i], &r[first]); first++ } }`; state is the array with the
boundary cursor `first`. -/
def partitionLoop (p : α → Bool) : (Nat → α) → Nat → Nat → Nat → (Nat → α) × Nat
  | r, first, _, 0 => (r, first)
  | r, first, i, n + 1 =>
    if p (r i) then partitionLoop p (swapFn r i first) (first + 1) (i + 1) n
    else partitionLoop p r first (i + 1) n

/-- `algorithm.Partition`: returns the updated sequence and the partition
point. -/
def Partition (r : Nat → α) (first last : Nat) (p : α → Bool) : (Nat → α) × Nat :=
  let f := FindIfNot r first last p
  if f = last then (r, f)
  else partitionLoop p r f (f + 1) (last - (f + 1))

/-- Second loop of `IsPartitioned`: `for ; first != last; first++ { if
p(r[first]) { return false } }; return true`. -/
def isPartLoop (r : Nat → α) (p : α → Bool) : Nat → Nat → Bool
  | _, 0 => true
  | first, n + 1 => if p (r first) then false else isPartLoop r p (first + 1) n

/-- `algorithm.IsPartitioned`: the first loop (advance while `p` holds,
breaking at the first failing element) computes exactly `findIfNotLoop`; the
second loop then scans the rest, starting at the element the break left
`first` on. -/
def IsPartitioned (r : Nat → α) (first last : Nat) (p : α → Bool) : Bool :=
  let b := findIfNotLoop r p first (last - first)
  isPartLoop r p b (last - b)

/-- Loop of `Unique`: `for first++; first != last; first++ { if r[result] !=
r[first] { result++; r[result] = r[first] } }`; state is the array with the
`result` cursor. -/
def uniqueLoop [DecidableEq α] : (Nat → α) → Nat → Nat → Nat → (Nat → α) × Nat
  | r, result, _, 0 => (r, result)
  | r, result, first, n + 1 =>
    if r result = r first then uniqueLoop r result (first + 1) n
    else uniqueLoop (updFn r (result + 1) (r first)) (result + 1) (first + 1) n

/-- `algorithm.Unique`: returns the updated sequence and the returned
past-the-end position of the deduplicated range. -/
def Unique [DecidableEq α] (r : Nat → α) (first last : Nat) : (Nat → α) × Nat :=
  if first = last then (r, last)
  else
    match uniqueLoop r first (first + 1) (last - (first + 1)) with
    | (r1, result) => (r1, result + 1)

/-- Swap-and-advance loop of `Rotate`: `for read := middle; read != last; {
if write == next_read { next_read = read }; IterSwap(&r[write], &r[read]);
write++; read++ }`, as recursion on the iteration count `last - middle`;
returns the array with the final `write` and `next_read`. -/
def rotLoop : (Nat → α) → Nat → Nat → Nat → Nat → (Nat → α) × Nat × Nat
  | r, write, next_read, _, 0 => (r, write, next_read)
  | r, write, next_read, read, k + 1 =>
    rotLoop (swapFn r write read) (write + 1)
      (if write = next_read then read else next_read) (read + 1) k

/-- `algorithm.Rotate` with explicit fuel for its self-recursion (`Rotate(r,
write, next_read, last)` after the swap loop): `none` means the fuel ran out,
which `rotate_terminates` below shows cannot happen with fuel `last - first`
on a valid range.  Returns the updated sequence and the returned position
`write`. -/
def rotateFuel (fuel : Nat) (r : Nat → α) (first middle last : Nat) :
    Option ((Nat → α) × Nat) :=
  if first = middle then some (r, last)
  else if middle = last then some (r, first)
  else
    match fuel with
    | 0 => none
    | f + 1 =>
      match rotLoop r first first middle (last - middle) with
      | (r1, write, next_read) =>
        match rotateFuel f r1 write next_read last with
        | none => none
        | some (r2, _) => some (r2, write)

/-- `algorithm.Rotate`, run with fuel `last - first` (enough for every valid
range: each self-recursion is on the strictly shorter range
`[write, last)`). -/
def Rotate (r : Nat → α) (first middle last : Nat) : Option ((Nat → α) × Nat) :=
  rotateFuel (last - first) r first middle last

/-- Loop of `Copy` as executed by `ShiftLeft`'s call `Move(r, r, first+n,
last, first)`, where both slice arguments are the same backing array, so the
reads and the writes go through one state: `for first != last { r2[d_first] =
r1[first]; first++; d_first++ }; return d_first`. -/
def copySameLoop : (Nat → α) → Nat → Nat → Nat → (Nat → α) × Nat
  | r, _, d_first, 0 => (r, d_first)
  | r, first, d_first, n + 1 =>
    copySameLoop (updFn r d_first (r first)) (first + 1) (d_first + 1) n

/-- `algorithm.Copy` (and `Move`, which just calls `Copy`) specialised to the
aliased call both of whose slice arguments are `r`. -/
def CopySame (r : Nat → α) (first last d_first : Nat) : (Nat → α) × Nat :=
  copySameLoop r first d_first (last - first)

/-- `algorithm.ShiftLeft`: the guards `n == 0` and `n >= last-first` in the
source coincide with these `Nat` tests on every valid range (negative `n` is
documented undefined behaviour). -/
def ShiftLeft (r : Nat → α) (first last n : Nat) : (Nat → α) × Nat :=
  if n = 0 then (r, last)
  else if last - first ≤ n then (r, first)
  else CopySame r (first + n) last first

/-- Backward loop of `ShiftRight`: `for i := last - 1; i >= first+n; i--
{ r[i] = r[i-n] }`, as recursion on the iteration count `last - first - n`
(the source only reaches it with `0 < n < last - first`). -/
def shiftRightLoop (n : Nat) : (Nat → α) → Nat → Nat → Nat → α
  | r, _, 0 => r
  | r, i, k + 1 => shiftRightLoop n (updFn r i (r (i - n))) (i - 1) k

/-- `algorithm.ShiftRight`. -/
def ShiftRight (r : Nat → α) (first last n : Nat) : (Nat → α) × Nat :=
  if n = 0 then (r, last)
  else if last - first ≤ n then (r, first)
  else (shiftRightLoop n r (last - 1) (last - first - n), last)

theorem updFn_same (r : Nat → α) (i : Nat) (v : α) : updFn r i v i = v := by
  simp [updFn]

theorem updFn_ne (r : Nat → α) {i x : Nat} (v : α) (h : x ≠ i) :
    updFn r i v x = r x := by
  simp [updFn, h]

theorem updFn_self (r : Nat → α) (i : Nat) : updFn r i (r i) = r := by
  funext x
  by_cases h : x = i
  · subst h; simp [updFn]
  · simp [updFn, h]

theorem swapFn_fst (r : Nat → α) (a b : Nat) : swapFn r a b a = r b := by
  simp [swapFn]

theorem swapFn_snd (r : Nat → α) (a b : Nat) : swapFn r a b b = r a := by
  by_cases h : b = a
  · subst h; simp [swapFn]
  · simp [swapFn, h]

theorem swapFn_ne (r : Nat → α) {a b x : Nat} (h1 : x ≠ a) (h2 : x ≠ b) :
    swapFn r a b x = r x := by
  simp [swapFn, h1, h2]

theorem swapFn_self (r : Nat → α) (a : Nat) : swapFn r a a = r := by
  funext x
  by_cases h : x = a
  · subst h; simp [swapFn]
  · simp [swapFn, h]

theorem seg_empty (r : Nat → α) {f l : Nat} (h : l ≤ f) : seg r f l = [] := by
  simp [seg, Nat.sub_eq_zero_of_le h]

theorem seg_cons (r : Nat → α) {f l : Nat} (h : f < l) :
    seg r f l = r f :: seg r (f + 1) l := by
  unfold seg
  have h1 : l - f = (l - (f + 1)) + 1 := by omega
  rw [h1, List.range_succ_eq_map, List.map_cons, List.map_map]
  refine congrArg₂ _ (by simp) (List.map_congr_left ?_)
  intro i _
  simp only [Function.comp]
  congr 1
  omega

theorem seg_append (r : Nat → α) {f m l : Nat} (h1 : f ≤ m) (h2 : m ≤ l) :
    seg r f m ++ seg r m l = seg r f l := by
  unfold seg
  have h3 : l - f = (m - f) + (l - m) := by omega
  rw [h3, List.range_add, List.map_append, List.map_map]
  refine congrArg₂ _ rfl (List.map_congr_left ?_)
  intro i _
  simp only [Function.comp]
  congr 1
  omega

theorem seg_congr {r s : Nat → α} {f l : Nat}
    (h : ∀ j, f ≤ j → j < l → r j = s j) : seg r f l = seg s f l := by
  unfold seg
  refine List.map_congr_left ?_
  intro i hi
  rw [List.mem_range] at hi
  exact h (f + i) (Nat.le_add_right _ _) (by omega)

theorem seg_length (r : Nat → α) (f l : Nat) : (seg r f l).length = l - f := by
  simp [seg]

/-- Exchanging two in-range positions permutes the range's contents. -/
theorem seg_swap_perm (r : Nat → α) {a b f l : Nat} (hfa : f ≤ a) (hal : a < l)
    (hfb : f ≤ b) (hbl : b < l) : (seg (swapFn r a b) f l).Perm (seg r f l) := by
  rcases Nat.lt_trichotomy a b with hab | hab | hab
  · have e1 : seg (swapFn r a b) f l =
        seg r f a ++ r b :: (seg r (a + 1) b ++ r a :: seg r (b + 1) l) := by
      rw [← seg_append (swapFn r a b) hfa (le_of_lt hal),
        seg_cons (swapFn r a b) hal,
        ← seg_append (swapFn r a b) (show a + 1 ≤ b by omega) (le_of_lt hbl),
        seg_cons (swapFn r a b) hbl, swapFn_fst, swapFn_snd]
      refine congrArg₂ _ (seg_congr fun j h1 h2 => swapFn_ne r (by omega) (by omega)) ?_
      refine congrArg₂ _ rfl (congrArg₂ _ (seg_congr fun j h1 h2 => swapFn_ne r (by omega) (by omega)) ?_)
      exact congrArg₂ _ rfl (seg_congr fun j h1 h2 => swapFn_ne r (by omega) (by omega))
    have e2 : seg r f l =
        seg r f a ++ r a :: (seg r (a + 1) b ++ r b :: seg r (b + 1) l) := by
      rw [← seg_append r hfa (le_of_lt hal), seg_cons r hal,
        ← seg_append r (show a + 1 ≤ b by omega) (le_of_lt hbl), seg_cons r hbl]
    rw [e1, e2]
    refine List.Perm.append_left _ ?_
    refine List.Perm.trans (List.Perm.cons _ List.perm_middle)
      (List.Perm.trans (List.Perm.swap _ _ _) (List.Perm.cons _ List.perm_middle.symm))
  · subst hab
    rw [swapFn_self]
  · have hc : swapFn r a b = swapFn r b a := by
      funext x
      by_cases h1 : x = a
      · subst h1; rw [swapFn_fst, swapFn_snd]
      · by_cases h2 : x = b
        · subst h2; rw [swapFn_snd, swapFn_fst]
        · rw [swapFn_ne r h1 h2, swapFn_ne r h2 h1]
    rw [hc]
    have e1 : seg (swapFn r b a) f l =
        seg r f b ++ r a :: (seg r (b + 1) a ++ r b :: seg r (a + 1) l) := by
      rw [← seg_append (swapFn r b a) hfb (le_of_lt hbl),
        seg_cons (swapFn r b a) hbl,
        ← seg_append (swapFn r b a) (show b + 1 ≤ a by omega) (le_of_lt hal),
        seg_cons (swapFn r b a) hal, swapFn_fst, swapFn_snd]
      refine congrArg₂ _ (seg_congr fun j h1 h2 => swapFn_ne r (by omega) (by omega)) ?_
      refine congrArg₂ _ rfl (congrArg₂ _ (seg_congr fun j h1 h2 => swapFn_ne r (by omega) (by omega)) ?_)
      exact congrArg₂ _ rfl (seg_congr fun j h1 h2 => swapFn_ne r (by omega) (by omega))
    have e2 : seg r f l =
        seg r f b ++ r b :: (seg r (b + 1) a ++ r a :: seg r (a + 1) l) := by
      rw [← seg_append r hfb (le_of_lt hbl), seg_cons r hbl,
        ← seg_append r (show b + 1 ≤ a by omega) (le_of_lt hal), seg_cons r hal]
    rw [e1, e2]
    refine List.Perm.append_left _ ?_
    refine List.Perm.trans (List.Perm.cons _ List.perm_middle)
      (List.Perm.trans (List.Perm.swap _ _ _) (List.Perm.cons _ List.perm_middle.symm))

/-- The scan of `findIfNotLoop` stops at the first position failing the
predicate: everything strictly before the result satisfies it, and the
result, when inside the range, fails it. -/
theorem findIfNotLoop_spec (r : Nat → α) (q : α → Bool) :
    ∀ (n f : Nat),
      f ≤ findIfNotLoop r q f n ∧ findIfNotLoop r q f n ≤ f + n ∧
        (∀ j, f ≤ j → j < findIfNotLoop r q f n → q (r j) = true) ∧
        (findIfNotLoop r q f n < f + n → q (r (findIfNotLoop r q f n)) = false) := by
  intro n
  induction n with
  | zero =>
    intro f
    simp only [findIfNotLoop]
    exact ⟨le_refl f, by omega, fun j hj1 hj2 => by omega, fun hcon => by omega⟩
  | succ n ih =>
    intro f
    rw [findIfNotLoop]
    by_cases hq : q (r f) = true
    · rw [if_neg (by simp [hq])]
      obtain ⟨ih1, ih2, ih3, ih4⟩ := ih (f + 1)
      refine ⟨by omega, by omega, ?_, fun hlt => ih4 (by omega)⟩
      intro j hj1 hj2
      rcases Nat.eq_or_lt_of_le hj1 with hj | hj
      · exact hj ▸ hq
      · exact ih3 j hj hj2
    · rw [if_pos (by simp [hq])]
      refine ⟨le_refl f, by omega, ?_, ?_⟩
      · intro j hj1 hj2; omega
      · intro _
        simpa using hq

/-- The tail scan of `IsPartitioned` returns `true` when every remaining
element fails the predicate. -/
theorem isPartLoop_eq_true (r : Nat → α) (p : α → Bool) :
    ∀ (n f : Nat), (∀ j, f ≤ j → j < f + n → p (r j) = false) →
      isPartLoop r p f n = true := by
  intro n
  induction n with
  | zero => intro f _; rfl
  | succ n ih =>
    intro f h
    rw [isPartLoop, if_neg (by simp [h f (le_refl f) (by omega)])]
    exact ih (f + 1) fun j hj1 hj2 => h j (by omega) (by omega)

/-- A range that is all-true on `[first, m)` and all-false on `[m, last)` is
accepted by `IsPartitioned`. -/
theorem isPartitioned_eq_true (r : Nat → α) (p : α → Bool) {first last m : Nat}
    (hm1 : first ≤ m) (hm2 : m ≤ last)
    (h1 : ∀ k, first ≤ k → k < m → p (r k) = true)
    (h2 : ∀ k, m ≤ k → k < last → p (r k) = false) :
    IsPartitioned r first last p = true := by
  rw [IsPartitioned]
  obtain ⟨hb1, hb2, hb3, hb4⟩ := findIfNotLoop_spec r p (last - first) first
  have hbm : m ≤ findIfNotLoop r p first (last - first) := by
    by_contra hlt
    push_neg at hlt
    have hfalse := hb4 (by omega)
    rw [h1 _ hb1 hlt] at hfalse
    simp at hfalse
  exact isPartLoop_eq_true r p _ _ fun j hj1 hj2 => h2 j (by omega) (by omega)

/-- Invariant proof for the swap loop of `Partition`: starting from a state
whose `[first, i)` block is all-false, the loop ends with an all-true block
followed by an all-false block, touches nothing outside `[first, i + n)`,
and permutes that range's contents. -/
theorem partitionLoop_spec (p : α → Bool) :
    ∀ (n : Nat) (r : Nat → α) (first i : Nat), first < i →
      (∀ k, first ≤ k → k < i → p (r k) = false) →
      first ≤ (partitionLoop p r first i n).2 ∧
        (partitionLoop p r first i n).2 ≤ i + n ∧
        (∀ k, first ≤ k → k < (partitionLoop p r first i n).2 →
          p ((partitionLoop p r first i n).1 k) = true) ∧
        (∀ k, (partitionLoop p r first i n).2 ≤ k → k < i + n →
          p ((partitionLoop p r first i n).1 k) = false) ∧
        (∀ k, k < first → (partitionLoop p r first i n).1 k = r k) ∧
        (∀ k, i + n ≤ k → (partitionLoop p r first i n).1 k = r k) ∧
        ((seg (partitionLoop p r first i n).1 first (i + n)).Perm
          (seg r first (i + n))) := by
  intro n
  induction n with
  | zero =>
    intro r first i hfi hfalse
    simp only [partitionLoop]
    refine ⟨le_refl first, by omega, ?_, ?_, fun k _ => trivial, fun k _ => trivial,
      List.Perm.refl _⟩
    · intro k hk1 hk2
      omega
    · intro k hk1 hk2
      exact hfalse k hk1 (by omega)
  | succ n ih =>
    intro r first i hfi hfalse
    rw [partitionLoop]
    have hin : i + (n + 1) = (i + 1) + n := by omega
    by_cases hp : p (r i) = true
    · rw [if_pos hp]
      have hfalse1 : ∀ k, first + 1 ≤ k → k < i + 1 → p (swapFn r i first k) = false := by
        intro k hk1 hk2
        rcases Nat.lt_or_ge k i with hk | hk
        · rw [swapFn_ne r (by omega) (by omega)]
          exact hfalse k (by omega) hk
        · have hki : k = i := by omega
          rw [hki, swapFn_fst]
          exact hfalse first (le_refl _) hfi
      obtain ⟨ih1, ih2, ih3, ih4, ih5, ih6, ih7⟩ :=
        ih (swapFn r i first) (first + 1) (i + 1) (by omega) hfalse1
      refine ⟨by omega, by omega, ?_, ?_, ?_, ?_, ?_⟩
      · intro k hk1 hk2
        rcases Nat.eq_or_lt_of_le hk1 with hk | hk
        · rw [← hk, ih5 first (by omega), swapFn_snd]
          exact hp
        · exact ih3 k hk hk2
      · intro k hk1 hk2
        exact ih4 k hk1 (by omega)
      · intro k hk
        rw [ih5 k (by omega), swapFn_ne r (by omega) (by omega)]
      · intro k hk
        rw [ih6 k (by omega), swapFn_ne r (by omega) (by omega)]
      · rw [hin]
        have hcons1 : seg (partitionLoop p (swapFn r i first) (first + 1) (i + 1) n).1
            first ((i + 1) + n) =
            r i :: seg (partitionLoop p (swapFn r i first) (first + 1) (i + 1) n).1
              (first + 1) ((i + 1) + n) := by
          rw [seg_cons _ (by omega), ih5 first (by omega), swapFn_snd]
        have hcons2 : seg (swapFn r i first) first ((i + 1) + n) =
            r i :: seg (swapFn r i first) (first + 1) ((i + 1) + n) := by
          rw [seg_cons _ (by omega), swapFn_snd]
        rw [hcons1]
        refine List.Perm.trans (List.Perm.cons _ ih7) ?_
        rw [← hcons2]
        exact seg_swap_perm r (by omega) (by omega) (le_refl _) (by omega)
    · rw [if_neg hp]
      have hfalse1 : ∀ k, first ≤ k → k < i + 1 → p (r k) = false := by
        intro k hk1 hk2
        rcases Nat.lt_or_ge k i with hk | hk
        · exact hfalse k hk1 hk
        · have hki : k = i := by omega
          rw [hki]
          simpa using hp
      obtain ⟨ih1, ih2, ih3, ih4, ih5, ih6, ih7⟩ := ih r first (i + 1) (by omega) hfalse1
      rw [hin]
      exact ⟨ih1, ih2, ih3, ih4, ih5, ih6, ih7⟩

/-- Invariant of the `Unique` loop: the surviving block `[f0, result]` never
holds two adjacent equal elements, because a new element is appended only
after comparing different from the current last survivor. -/
theorem uniqueLoop_chain [DecidableEq α] (f0 : Nat) :
    ∀ (n : Nat) (r : Nat → α) (result first : Nat), result < first →
      f0 ≤ result →
      (∀ j, f0 ≤ j → j < result → r j ≠ r (j + 1)) →
      result ≤ (uniqueLoop r result first n).2 ∧
        (∀ j, f0 ≤ j → j < (uniqueLoop r result first n).2 →
          (uniqueLoop r result first n).1 j ≠ (uniqueLoop r result first n).1 (j + 1)) := by
  intro n
  induction n with
  | zero =>
    intro r result first _ _ hch
    exact ⟨le_refl _, hch⟩
  | succ n ih =>
    intro r result first hrf h0 hch
    rw [uniqueLoop]
    by_cases heq : r result = r first
    · rw [if_pos heq]
      exact ih r result (first + 1) (by omega) h0 hch
    · rw [if_neg heq]
      have hch1 : ∀ j, f0 ≤ j → j < result + 1 →
          updFn r (result + 1) (r first) j ≠ updFn r (result + 1) (r first) (j + 1) := by
        intro j hj1 hj2
        rcases Nat.lt_or_ge j result with hj | hj
        · rw [updFn_ne r _ (by omega), updFn_ne r _ (by omega)]
          exact hch j hj1 hj
        · have hje : j = result := by omega
          rw [hje, updFn_ne r _ (by omega), updFn_same]
          exact heq
      have := ih (updFn r (result + 1) (r first)) (result + 1) (first + 1)
        (by omega) (by omega) hch1
      exact ⟨by omega, this.2⟩

/-- On a block with no two adjacent equal elements the `Unique` loop is the
identity: every comparison differs, each write re-writes the value already
present, and the cursor ends at the block's last position. -/
theorem uniqueLoop_id [DecidableEq α] :
    ∀ (n : Nat) (r : Nat → α) (result : Nat),
      (∀ j, result ≤ j → j < result + n → r j ≠ r (j + 1)) →
      (uniqueLoop r result (result + 1) n).2 = result + n ∧
        ∀ x, (uniqueLoop r result (result + 1) n).1 x = r x := by
  intro n
  induction n with
  | zero =>
    intro r result _
    exact ⟨rfl, fun x => rfl⟩
  | succ n ih =>
    intro r result hch
    rw [uniqueLoop,
      if_neg (hch result (le_refl _) (by omega)), updFn_self]
    have := ih r (result + 1) fun j hj1 hj2 => hch j (by omega) (by omega)
    refine ⟨?_, ?_⟩
    · rw [show result + 1 + 1 = result + 2 from rfl] at this
      rw [this.1]
      omega
    · intro x
      rw [show result + 1 + 1 = result + 2 from rfl] at this
      exact this.2 x

/-- Two segments are equal when their positions are aligned by a constant
shift and the underlying values agree. -/
theorem seg_shift (r2 r : Nat → α) (f1 l1 f2 : Nat)
    (h : ∀ i, i < l1 - f1 → r2 (f1 + i) = r (f2 + i)) :
    seg r2 f1 l1 = seg r (f2) (f2 + (l1 - f1)) := by
  unfold seg
  rw [show f2 + (l1 - f1) - f2 = l1 - f1 by omega]
  refine List.map_congr_left ?_
  intro i hi
  rw [List.mem_range] at hi
  exact h i hi

/-- Invariant of the swap loop of `Rotate`, relative to the array `a` the
enclosing call started from, with `m = middle - first` the size of the
still-unplaced left block.  The state `(r, w, nr, rd)` always satisfies
`rd = w + m` and splits as: `[first, w)` already holds its final values
`a[middle, ...)`; `[w, nr)` holds the tail `a[middle - (nr - w), middle)` of
the left block; `[nr, rd)` holds the head `a[first, ...)` of the left block;
`[rd, ...)` is untouched, as is everything below `first`.  One loop step
preserves all of this. -/
theorem rotLoop_spec (a : Nat → α) (first middle : Nat) (hm : first < middle) :
    ∀ (k : Nat) (r : Nat → α) (w nr rd : Nat),
      first ≤ w → w ≤ nr → nr ≤ rd → rd = w + (middle - first) →
      (∀ j, first ≤ j → j < w → r j = a (j + (middle - first))) →
      (∀ j, w ≤ j → j < nr → r j = a (middle + j - nr)) →
      (∀ j, nr ≤ j → j < rd → r j = a (first + j - nr)) →
      (∀ j, rd ≤ j → r j = a j) →
      (∀ j, j < first → r j = a j) →
      (rotLoop r w nr rd k).2.1 = w + k ∧
        w + k ≤ (rotLoop r w nr rd k).2.2 ∧
        (rotLoop r w nr rd k).2.2 ≤ rd + k ∧
        (∀ j, first ≤ j → j < w + k →
          (rotLoop r w nr rd k).1 j = a (j + (middle - first))) ∧
        (∀ j, w + k ≤ j → j < (rotLoop r w nr rd k).2.2 →
          (rotLoop r w nr rd k).1 j = a (middle + j - (rotLoop r w nr rd k).2.2)) ∧
        (∀ j, (rotLoop r w nr rd k).2.2 ≤ j → j < rd + k →
          (rotLoop r w nr rd k).1 j = a (first + j - (rotLoop r w nr rd k).2.2)) ∧
        (∀ j, rd + k ≤ j → (rotLoop r w nr rd k).1 j = a j) ∧
        (∀ j, j < first → (rotLoop r w nr rd k).1 j = a j) := by
  intro k
  induction k with
  | zero =>
    intro r w nr rd hb1 hb2 hb3 hb4 hA hB hC hD hE
    simp only [rotLoop]
    exact ⟨rfl, hb2, by omega, fun j h1 h2 => hA j h1 h2, hB, hC, hD, hE⟩
  | succ k ih =>
    intro r w nr rd hb1 hb2 hb3 hb4 hA hB hC hD hE
    have hwrd : w < rd := by omega
    rw [rotLoop]
    by_cases hw : w = nr
    · rw [if_pos hw]
      have := ih (swapFn r w rd) (w + 1) rd (rd + 1) (by omega) (by omega)
        (by omega) (by omega)
        (by
          intro j h1 h2
          rcases Nat.lt_or_ge j w with hj | hj
          · rw [swapFn_ne r (by omega) (by omega)]
            exact hA j h1 hj
          · have hje : j = w := by omega
            rw [hje, swapFn_fst, hD rd (le_refl _)]
            exact congrArg a (by omega))
        (by
          intro j h1 h2
          rw [swapFn_ne r (by omega) (by omega)]
          rw [hC j (by omega) (by omega)]
          congr 1
          omega)
        (by
          intro j h1 h2
          have hje : j = rd := by omega
          rw [hje, swapFn_snd, hC w (by omega) hwrd]
          congr 1
          omega)
        (by
          intro j h1
          rw [swapFn_ne r (by omega) (by omega)]
          exact hD j (by omega))
        (by
          intro j h1
          rw [swapFn_ne r (by omega) (by omega)]
          exact hE j h1)
      obtain ⟨c1, c2, c3, c4, c5, c6, c7, c8⟩ := this
      refine ⟨by omega, by omega, by omega, ?_, ?_, ?_, ?_, c8⟩
      · intro j h1 h2
        exact c4 j h1 (by omega)
      · intro j h1 h2
        exact c5 j (by omega) h2
      · intro j h1 h2
        exact c6 j h1 (by omega)
      · intro j h1
        exact c7 j (by omega)
    · rw [if_neg hw]
      have hwnr : w < nr := by omega
      have := ih (swapFn r w rd) (w + 1) nr (rd + 1) (by omega) (by omega)
        (by omega) (by omega)
        (by
          intro j h1 h2
          rcases Nat.lt_or_ge j w with hj | hj
          · rw [swapFn_ne r (by omega) (by omega)]
            exact hA j h1 hj
          · have hje : j = w := by omega
            rw [hje, swapFn_fst, hD rd (le_refl _)]
            exact congrArg a (by omega))
        (by
          intro j h1 h2
          rw [swapFn_ne r (by omega) (by omega)]
          exact hB j (by omega) h2)
        (by
          intro j h1 h2
          rcases Nat.lt_or_ge j rd with hj | hj
          · rw [swapFn_ne r (by omega) (by omega)]
            exact hC j h1 hj
          · have hje : j = rd := by omega
            rw [hje, swapFn_snd, hB w (le_refl _) hwnr]
            congr 1
            omega)
        (by
          intro j h1
          rw [swapFn_ne r (by omega) (by omega)]
          exact hD j (by omega))
        (by
          intro j h1
          rw [swapFn_ne r (by omega) (by omega)]
          exact hE j h1)
      obtain ⟨c1, c2, c3, c4, c5, c6, c7, c8⟩ := this
      refine ⟨by omega, by omega, by omega, ?_, ?_, ?_, ?_, c8⟩
      · intro j h1 h2
        exact c4 j h1 (by omega)
      · intro j h1 h2
        exact c5 j (by omega) h2
      · intro j h1 h2
        exact c6 j h1 (by omega)
      · intro j h1
        exact c7 j (by omega)

/-- Full correctness of the fuelled `Rotate` by induction on the fuel: on a
valid range, with fuel at least the range's length, the call succeeds,
returns position `first + (last - middle)`, places the original
`[middle, last)` block first and the original `[first, middle)` block after
it, and touches nothing outside the range. -/
theorem rotateFuel_correct :
    ∀ (fuel : Nat) (r : Nat → α) (first middle last : Nat),
      first ≤ middle → middle ≤ last → last - first ≤ fuel →
      ∃ r2, rotateFuel fuel r first middle last =
          some (r2, first + (last - middle)) ∧
        (∀ j, first ≤ j → j < first + (last - middle) →
          r2 j = r (middle + j - first)) ∧
        (∀ j, first + (last - middle) ≤ j → j < last →
          r2 j = r (j - (last - middle))) ∧
        (∀ j, j < first → r2 j = r j) ∧ (∀ j, last ≤ j → r2 j = r j) := by
  intro fuel
  induction fuel with
  | zero =>
    intro r first middle last h1 h2 h3
    have hfm : first = middle := by omega
    refine ⟨r, ?_, ?_, ?_, fun j _ => rfl, fun j _ => rfl⟩
    · rw [rotateFuel, if_pos hfm]
      have : first + (last - middle) = last := by omega
      rw [this]
    · intro j hj1 hj2
      congr 1
      omega
    · intro j hj1 hj2
      congr 1
      omega
  | succ f ih =>
    intro r first middle last h1 h2 h3
    by_cases hfm : first = middle
    · refine ⟨r, ?_, ?_, ?_, fun j _ => rfl, fun j _ => rfl⟩
      · rw [rotateFuel, if_pos hfm]
        have : first + (last - middle) = last := by omega
        rw [this]
      · intro j hj1 hj2
        congr 1
        omega
      · intro j hj1 hj2
        congr 1
        omega
    · by_cases hml : middle = last
      · refine ⟨r, ?_, ?_, ?_, fun j _ => rfl, fun j _ => rfl⟩
        · rw [rotateFuel, if_neg hfm, if_pos hml]
          have : first + (last - middle) = first := by omega
          rw [this]
        · intro j hj1 hj2
          omega
        · intro j hj1 hj2
          congr 1
          omega
      · have hfm1 : first < middle := by omega
        have hml1 : middle < last := by omega
        have hstep : rotateFuel (f + 1) r first middle last =
            match rotateFuel f (rotLoop r first first middle (last - middle)).1
              (rotLoop r first first middle (last - middle)).2.1
              (rotLoop r first first middle (last - middle)).2.2 last with
            | none => none
            | some (r2, _) =>
              some (r2, (rotLoop r first first middle (last - middle)).2.1) := by
          rw [rotateFuel, if_neg hfm, if_neg hml]
        obtain ⟨L1, L2, L3, LA, LB, LC, LD, LE⟩ :=
          rotLoop_spec r first middle hfm1 (last - middle) r first first middle
            (le_refl _) (le_refl _) h1 (by omega)
            (fun j hj1 hj2 => by omega)
            (fun j hj1 hj2 => by omega)
            (fun j hj1 hj2 => by congr 1; omega)
            (fun j _ => rfl) (fun j _ => rfl)
        have hmd : middle + (last - middle) = last := by omega
        rw [hmd] at L3 LC LD
        obtain ⟨r2, hrec, RA, RB, Rlow, Rhigh⟩ :=
          ih (rotLoop r first first middle (last - middle)).1
            (rotLoop r first first middle (last - middle)).2.1
            (rotLoop r first first middle (last - middle)).2.2 last
            (by omega) L3 (by omega)
        rw [L1] at hrec RA RB Rlow
        refine ⟨r2, ?_, ?_, ?_, ?_, ?_⟩
        · rw [hstep, L1, hrec]
        · intro j hj1 hj2
          rw [Rlow j hj2, LA j hj1 (by omega)]
          congr 1
          omega
        · intro j hj1 hj2
          rcases Nat.lt_or_ge j
            (first + (last - middle) +
              (last - (rotLoop r first first middle (last - middle)).2.2)) with hj | hj
          · rw [RA j hj1 hj]
            rw [LC ((rotLoop r first first middle (last - middle)).2.2 + j -
                (first + (last - middle))) (by omega) (by omega)]
            congr 1
            omega
          · rw [RB j hj hj2]
            rw [LB (j - (last - (rotLoop r first first middle (last - middle)).2.2))
                (by omega) (by omega)]
            congr 1
            omega
        · intro j hj
          rw [Rlow j (by omega), LE j hj]
        · intro j hj
          rw [Rhigh j hj, LD j (by omega)]

/-- Postcondition of the `SearchN` state machine, proved for both state
shapes at once by induction on the fuel.  From an outer state at `f` (with
fuel at least `2*(last-f) + 1`), and from an inner state
`(cand, cc, f)` whose invariant records that `r[cand..f]` is all `value` and
`cc` counts those elements (with fuel at least `2*(last-f)`), the machine
either returns `last` with no run starting at or after the base position
(`f`, resp. `cand`), or returns the least run start at or after the base. -/
theorem snRun_post [DecidableEq α] (r : Nat → α) (value : α) (count : Int)
    (last : Nat) (hc : 0 < count) :
    ∀ fuel : Nat,
      (∀ f, f ≤ last → 2 * (last - f) + 1 ≤ fuel →
        (snRun r value count last fuel (Sum.inl f) = last ∧
          ∀ i, f ≤ i → ¬ RunAt r value last count.toNat i) ∨
        (f ≤ snRun r value count last fuel (Sum.inl f) ∧
          RunAt r value last count.toNat (snRun r value count last fuel (Sum.inl f)) ∧
          ∀ i, f ≤ i → i < snRun r value count last fuel (Sum.inl f) →
            ¬ RunAt r value last count.toNat i)) ∧
      (∀ cand cc f, cand ≤ f → f < last → cc = (f : Int) - (cand : Int) + 1 →
        (∀ j, cand ≤ j → j ≤ f → r j = value) → 2 * (last - f) ≤ fuel →
        (snRun r value count last fuel (Sum.inr (cand, cc, f)) = last ∧
          ∀ i, cand ≤ i → ¬ RunAt r value last count.toNat i) ∨
        (cand ≤ snRun r value count last fuel (Sum.inr (cand, cc, f)) ∧
          RunAt r value last count.toNat
            (snRun r value count last fuel (Sum.inr (cand, cc, f))) ∧
          ∀ i, cand ≤ i →
            i < snRun r value count last fuel (Sum.inr (cand, cc, f)) →
            ¬ RunAt r value last count.toNat i)) := by
  have hc1 : 0 < count.toNat := by omega
  intro fuel
  induction fuel with
  | zero =>
    constructor
    · intro f h1 h2
      omega
    · intro cand cc f h1 h2 h3 h4 h5
      omega
  | succ fuel ih =>
    constructor
    · intro f h1 h2
      rw [snRun]
      by_cases hfl : f = last
      · rw [if_pos hfl]
        refine Or.inl ⟨rfl, ?_⟩
        intro i hi hrun
        have := hrun.1
        omega
      · rw [if_neg hfl]
        have hflt : f < last := by omega
        by_cases hrv : r f = value
        · rw [if_pos hrv]
          exact ih.2 f 1 f (le_refl _) hflt (by omega)
            (fun j hj1 hj2 => by
              have hj : j = f := by omega
              rw [hj]; exact hrv)
            (by omega)
        · rw [if_neg hrv]
          have hnotf : ¬ RunAt r value last count.toNat f := by
            intro hrun
            exact hrv (by simpa using hrun.2 0 hc1)
          rcases ih.1 (f + 1) (by omega) (by omega) with ⟨heq, hnone⟩ | ⟨hge, hrun, hmin⟩
          · refine Or.inl ⟨heq, ?_⟩
            intro i hi
            rcases Nat.eq_or_lt_of_le hi with hi1 | hi1
            · exact hi1 ▸ hnotf
            · exact hnone i hi1
          · refine Or.inr ⟨by omega, hrun, ?_⟩
            intro i hi1 hi2
            rcases Nat.eq_or_lt_of_le hi1 with hi3 | hi3
            · exact hi3 ▸ hnotf
            · exact hmin i hi3 hi2
    · intro cand cc f h1 h2 h3 h4 h5
      rw [snRun]
      by_cases hcc : count ≤ cc
      · rw [if_pos hcc]
        refine Or.inr ⟨le_refl _, ⟨by omega, ?_⟩, ?_⟩
        · intro j hj
          exact h4 (cand + j) (by omega) (by omega)
        · intro i hi1 hi2
          omega
      · rw [if_neg hcc]
        have hcx : f + 2 ≤ cand + count.toNat := by omega
        by_cases hfl1 : f + 1 = last
        · rw [if_pos hfl1]
          refine Or.inl ⟨rfl, ?_⟩
          intro i hi hrun
          have := hrun.1
          omega
        · rw [if_neg hfl1]
          by_cases hrv : r (f + 1) = value
          · rw [if_pos hrv]
            exact ih.2 cand (cc + 1) (f + 1) (by omega) (by omega) (by omega)
              (fun j hj1 hj2 => by
                rcases Nat.lt_or_ge j (f + 1) with hj | hj
                · exact h4 j hj1 (by omega)
                · have hj3 : j = f + 1 := by omega
                  rw [hj3]; exact hrv)
              (by omega)
          · rw [if_neg hrv]
            have hseg1 : ∀ i, cand ≤ i → i < f + 2 →
                ¬ RunAt r value last count.toNat i := by
              intro i hi1 hi2 hrun
              rcases Nat.lt_or_ge i (f + 1) with hi3 | hi3
              · have hj : f + 1 - i < count.toNat := by omega
                have := hrun.2 (f + 1 - i) hj
                rw [show i + (f + 1 - i) = f + 1 by omega] at this
                exact hrv this
              · have hi4 : i = f + 1 := by omega
                have := hrun.2 0 hc1
                rw [hi4] at this
                exact hrv (by simpa using this)
            rcases ih.1 (f + 2) (by omega) (by omega) with ⟨heq, hnone⟩ | ⟨hge, hrun, hmin⟩
            · refine Or.inl ⟨heq, ?_⟩
              intro i hi
              rcases Nat.lt_or_ge i (f + 2) with hi1 | hi1
              · exact hseg1 i hi hi1
              · exact hnone i hi1
            · refine Or.inr ⟨by omega, hrun, ?_⟩
              intro i hi1 hi2
              rcases Nat.lt_or_ge i (f + 2) with hi3 | hi3
              · exact hseg1 i hi1 hi3
              · exact hmin i hi3 hi2

theorem copySameLoop_snd (n : Nat) :
    ∀ (r : Nat → α) (first d_first : Nat),
      (copySameLoop r first d_first n).2 = d_first + n := by
  induction n with
  | zero => intro r first d; rfl
  | succ n ih =>
    intro r first d
    rw [copySameLoop, ih]
    omega

/-- C1.  `Remove` evaluated at the very input the claim quotes: on
`[1, 2, 2, 3, 2]` with value `2` over `[0, 5)` it returns new end `3` with
surviving values `[1, 2, 2]` — the loop's test `r[i] == value` compacts the
elements EQUAL to the value, so the claimed result (end `2`, survivors
`[1, 3]`, matching the function's own doc comment and `RemoveIf`'s negated
test) does not hold. -/
theorem remove_claim_fails_eval :
    (Remove (ofl [1, 2, 2, 3, 2]) 0 5 2).2 = 3 ∧
      seg (Remove (ofl [1, 2, 2, 3, 2]) 0 5 2).1 0 3 = [1, 2, 2] ∧
      (3 : Nat) ≠ 2 ∧ ([1, 2, 2] : List Int) ≠ [1, 3] := by
  refine ⟨?_, ?_, by decide, by decide⟩ <;> decide

/-- C2.  `Mismatch` and `Mismatch2` evaluated on `r1 = [1, 2]`,
`r2 = [3, 4]` over the full ranges: the guard reads `r1[first2]` instead of
`r2[first2]`, so both report no divergence and return `(2, 2)`, although the
elements already differ at offset `0` (`r1[0] = 1 ≠ 3 = r2[0]`), where the
claim requires the pair `(0, 0)`. -/
theorem mismatch_claim_fails_eval :
    Mismatch (ofl [1, 2]) (ofl [3, 4]) 0 2 0 = MakePair 2 2 ∧
      Mismatch2 (ofl [1, 2]) (ofl [3, 4]) 0 2 0 2 = MakePair 2 2 ∧
      ofl [1, 2] 0 ≠ ofl [3, 4] 0 ∧ MakePair 2 2 ≠ MakePair 0 0 := by
  refine ⟨?_, ?_, ?_, ?_⟩ <;> decide

/-- C3.  `LowerBound` and `UpperBound` evaluated on the (trivially sorted)
sequence `[5]` over `[0, 1)` with value `3`: both return `1` (= `last`),
although position `0` already holds an element that is not less than `3`
(indeed `3 < 5`), so the least qualifying position required by the claim (and
by the functions' own doc comments) is `0`.  The loop guard `first < last-1`
never lets the search examine `r[first]`, so `first` can never be
returned. -/
theorem bounds_claim_fails_eval :
    LowerBound (ofl [5]) 0 1 3 = 1 ∧ UpperBound (ofl [5]) 0 1 3 = 1 ∧
      ¬ ofl [5] 0 < 3 ∧ (3 : Int) < ofl [5] 0 ∧ (1 : Nat) ≠ 0 := by
  refine ⟨?_, ?_, ?_, ?_, ?_⟩ <;> decide

/-- C4.  `Equal2` and `EqualFunc2` evaluated on `r1 = [1]` over `[0, 1)` and
`r2 = [1, 2]` over `[0, 2)`: the ranges have different lengths (`1 ≠ 2`), so
the claim requires `false`, but the loop stops as soon as the shorter range
is exhausted and both functions return `true`. -/
theorem equal2_claim_fails_eval :
    Equal2 (ofl [1]) (ofl [1, 2]) 0 1 0 2 = true ∧
      EqualFunc2 (ofl [1]) (ofl [1, 2]) 0 1 0 2 (fun a b => a == b) = true ∧
      (1 : Nat) - 0 ≠ 2 - 0 := by
  refine ⟨?_, ?_, ?_⟩ <;> decide

/-- C6.  `Rotate` on a valid range `first ≤ middle ≤ last` succeeds,
returns position `first + (last - middle)` (the new position of the element
originally at `middle`; in particular `last` when `first = middle` and
`first` when `middle = last`, where it is a no-op), places the elements
originally in `[middle, last)` first, followed by those originally in
`[first, middle)`, each block's order preserved, and leaves everything
outside the range unchanged. -/
theorem rotate_spec (r : Nat → α) (first middle last : Nat)
    (h1 : first ≤ middle) (h2 : middle ≤ last) :
    ∃ q, Rotate r first middle last = some q ∧
      q.2 = first + (last - middle) ∧
      seg q.1 first last = seg r middle last ++ seg r first middle ∧
      ∀ j, j < first ∨ last ≤ j → q.1 j = r j := by
  obtain ⟨r2, heq, hA, hB, hlow, hhigh⟩ :=
    rotateFuel_correct (last - first) r first middle last h1 h2 (le_refl _)
  refine ⟨(r2, first + (last - middle)), heq, rfl, ?_, ?_⟩
  · have hw1 : first ≤ first + (last - middle) := by omega
    have hw2 : first + (last - middle) ≤ last := by omega
    rw [← seg_append r2 hw1 hw2]
    have e1 : seg r2 first (first + (last - middle)) = seg r middle last := by
      rw [seg_shift r2 r first (first + (last - middle)) middle
        (by
          intro i hi
          rw [hA (first + i) (by omega) (by omega)]
          congr 1
          omega)]
      congr 1
      omega
    have e2 : seg r2 (first + (last - middle)) last = seg r first middle := by
      rw [seg_shift r2 r (first + (last - middle)) last first
        (by
          intro i hi
          rw [hB (first + (last - middle) + i) (by omega) (by omega)]
          congr 1
          omega)]
      congr 1
      omega
    rw [e1, e2]
  · intro j hj
    rcases hj with hj | hj
    · exact hlow j hj
    · exact hhigh j hj

/-- Witness for `rotate_spec`: rotating `[1, 2, 3, 4, 5]` around `middle = 2`
over `[0, 5)` yields the sequence `[3, 4, 5, 1, 2]` and returns position
`3`. -/
theorem rotate_spec_witness :
    (Rotate (ofl [1, 2, 3, 4, 5]) 0 2 5).map (fun q => (seg q.1 0 5, q.2)) =
      some ([3, 4, 5, 1, 2], 3) := by
  obtain ⟨q, hq, hret, hseg, -⟩ := rotate_spec (ofl [1, 2, 3, 4, 5]) 0 2 5
    (by decide) (by decide)
  have hv1 : seg q.1 0 5 = [3, 4, 5, 1, 2] := by
    rw [hseg]
    decide
  have hv2 : q.2 = 3 := by
    rw [hret]
  rw [hq, Option.map, hv1, hv2]

/-- C9.  The recursive `Rotate` terminates on every valid range: any fuel of
at least the range length `last - first` (in particular exactly that, as
`Rotate` supplies) is enough for the recursion to complete — each recursive
call works on the strictly shorter range `[write, last)`. -/
theorem rotate_terminates (r : Nat → α) (first middle last : Nat)
    (h1 : first ≤ middle) (h2 : middle ≤ last) :
    (Rotate r first middle last).isSome = true ∧
      ∀ fuel, last - first ≤ fuel →
        (rotateFuel fuel r first middle last).isSome = true := by
  constructor
  · obtain ⟨r2, heq, -⟩ :=
      rotateFuel_correct (last - first) r first middle last h1 h2 (le_refl _)
    rw [Rotate, heq]
    rfl
  · intro fuel hfuel
    obtain ⟨r2, heq, -⟩ := rotateFuel_correct fuel r first middle last h1 h2 hfuel
    rw [heq]
    rfl

/-- Witness for `rotate_terminates` at the concrete valid range `[0, 5)` with
`middle = 2` on `[1, 2, 3, 4, 5]`. -/
theorem rotate_terminates_witness :
    (Rotate (ofl [1, 2, 3, 4, 5]) 0 2 5).isSome = true ∧
      (rotateFuel 7 (ofl [1, 2, 3, 4, 5]) 0 2 5).isSome = true :=
  ⟨(rotate_terminates (ofl [1, 2, 3, 4, 5]) 0 2 5 (by decide) (by decide)).1,
   (rotate_terminates (ofl [1, 2, 3, 4, 5]) 0 2 5 (by decide) (by decide)).2 7
     (by decide)⟩

/-- C7.  `SearchN` on a valid range: with `count ≤ 0` it returns `first`;
with `count > 0` it either returns `last` and no position at or after
`first` starts a run of `count` consecutive elements equal to `value` inside
the range, or it returns the least position at or after `first` starting
such a run. -/
theorem searchN_spec [DecidableEq α] (r : Nat → α) (first last : Nat)
    (count : Int) (value : α) (h : first ≤ last) :
    (count ≤ 0 → SearchN r first last count value = first) ∧
    (0 < count →
      (SearchN r first last count value = last ∧
        ∀ i, first ≤ i → ¬ RunAt r value last count.toNat i) ∨
      (first ≤ SearchN r first last count value ∧
        RunAt r value last count.toNat (SearchN r first last count value) ∧
        ∀ i, first ≤ i → i < SearchN r first last count value →
          ¬ RunAt r value last count.toNat i)) := by
  constructor
  · intro h0
    rw [SearchN, if_pos h0]
  · intro hc
    rw [SearchN, if_neg (by omega)]
    exact (snRun_post r value count last hc (2 * (last - first) + 1)).1 first h
      (le_refl _)

/-- Witness for `searchN_spec`: on `[4, 4, 4, 1, 4, 4]` with `count = 3`,
`value = 4` over `[0, 6)` the result is `0` (the leading run), and on
`[4, 4, 1, 1]` with `count = 3`, `value = 4` over `[0, 4)` the result is `4`
(`last`: no run of length 3 exists). -/
theorem searchN_spec_witness :
    SearchN (ofl [4, 4, 4, 1, 4, 4]) 0 6 3 4 = 0 ∧
      SearchN (ofl [4, 4, 1, 1]) 0 4 3 4 = 4 := by
  constructor
  · have h := (searchN_spec (ofl [4, 4, 4, 1, 4, 4]) 0 6 3 4 (by decide)).2
      (by decide)
    have hrun0 : RunAt (ofl [4, 4, 4, 1, 4, 4]) 4 6 (3 : Int).toNat 0 := by
      constructor
      · decide
      · decide
    rcases h with ⟨-, hnone⟩ | ⟨-, -, hmin⟩
    · exact absurd hrun0 (hnone 0 (le_refl _))
    · rcases Nat.eq_zero_or_pos (SearchN (ofl [4, 4, 4, 1, 4, 4]) 0 6 3 4) with h0 | h0
      · exact h0
      · exact absurd hrun0 (hmin 0 (le_refl _) h0)
  · have h := (searchN_spec (ofl [4, 4, 1, 1]) 0 4 3 4 (by decide)).2 (by decide)
    rcases h with ⟨heq, -⟩ | ⟨-, hrun, -⟩
    · exact heq
    · exfalso
      have hb : SearchN (ofl [4, 4, 1, 1]) 0 4 3 4 + (3 : Int).toNat ≤ 4 := hrun.1
      have h01 : SearchN (ofl [4, 4, 1, 1]) 0 4 3 4 = 0 ∨
          SearchN (ofl [4, 4, 1, 1]) 0 4 3 4 = 1 := by omega
      rcases h01 with h0 | h0
      · have hv := hrun.2 2 (by decide)
        rw [h0] at hv
        exact absurd hv (by decide)
      · have hv := hrun.2 1 (by decide)
        rw [h0] at hv
        exact absurd hv (by decide)

/-- C8.  `Unique` is idempotent: writing `(r1, e)` for the result of
`Unique` on a valid range `[first, last)`, running `Unique` again on
`[first, e)` of `r1` returns `e` and leaves every element of `r1[first, e)`
unchanged. -/
theorem unique_idempotent [DecidableEq α] (r : Nat → α) (first last : Nat)
    (h : first ≤ last) :
    (Unique (Unique r first last).1 first (Unique r first last).2).2 =
        (Unique r first last).2 ∧
      ∀ j, first ≤ j → j < (Unique r first last).2 →
        (Unique (Unique r first last).1 first (Unique r first last).2).1 j =
          (Unique r first last).1 j := by
  by_cases hfl : first = last
  · subst hfl
    simp [Unique]
  · have hU : Unique r first last =
        ((uniqueLoop r first (first + 1) (last - (first + 1))).1,
          (uniqueLoop r first (first + 1) (last - (first + 1))).2 + 1) := by
      rw [Unique, if_neg hfl]
    obtain ⟨hc1, hc2⟩ := uniqueLoop_chain first (last - (first + 1)) r first
      (first + 1) (by omega) (le_refl _) (fun j hj1 hj2 => by omega)
    rw [hU]
    have hne2 : first ≠ (uniqueLoop r first (first + 1) (last - (first + 1))).2 + 1 := by
      omega
    have hU2 : Unique (uniqueLoop r first (first + 1) (last - (first + 1))).1 first
        ((uniqueLoop r first (first + 1) (last - (first + 1))).2 + 1) =
        ((uniqueLoop (uniqueLoop r first (first + 1) (last - (first + 1))).1 first
            (first + 1)
            ((uniqueLoop r first (first + 1) (last - (first + 1))).2 + 1 - (first + 1))).1,
          (uniqueLoop (uniqueLoop r first (first + 1) (last - (first + 1))).1 first
            (first + 1)
            ((uniqueLoop r first (first + 1) (last - (first + 1))).2 + 1 - (first + 1))).2
            + 1) := by
      rw [Unique, if_neg hne2]
    rw [hU2]
    obtain ⟨hid1, hid2⟩ := uniqueLoop_id
      ((uniqueLoop r first (first + 1) (last - (first + 1))).2 + 1 - (first + 1))
      (uniqueLoop r first (first + 1) (last - (first + 1))).1 first
      (fun j hj1 hj2 => hc2 j hj1 (by omega))
    constructor
    · rw [hid1]
      omega
    · intro j hj1 hj2
      exact hid2 j

/-- Witness for `unique_idempotent` on `[1, 1, 2, 2, 3]` over `[0, 5)`: the
first pass returns end `3` with survivors `[1, 2, 3]`; the second pass
returns the same end and keeps position `1` (and the rest) unchanged. -/
theorem unique_idempotent_witness :
    (Unique (Unique (ofl [1, 1, 2, 2, 3]) 0 5).1 0
        (Unique (ofl [1, 1, 2, 2, 3]) 0 5).2).2 =
      (Unique (ofl [1, 1, 2, 2, 3]) 0 5).2 ∧
    (Unique (Unique (ofl [1, 1, 2, 2, 3]) 0 5).1 0
        (Unique (ofl [1, 1, 2, 2, 3]) 0 5).2).1 1 =
      (Unique (ofl [1, 1, 2, 2, 3]) 0 5).1 1 :=
  ⟨(unique_idempotent (ofl [1, 1, 2, 2, 3]) 0 5 (by decide)).1,
   (unique_idempotent (ofl [1, 1, 2, 2, 3]) 0 5 (by decide)).2 1 (by decide)
     (by decide)⟩

/-- C10.  Return values of the shift operations on a valid range: with
`n = 0` both `ShiftLeft` and `ShiftRight` return `last` with the sequence
untouched; with `0 < n < last - first`, `ShiftLeft` returns `last - n` and
`ShiftRight` returns `last`; with `n ≥ last - first` both return `first`
with the sequence untouched. -/
theorem shift_spec (r : Nat → α) (first last n : Nat) (h : first ≤ last) :
    (n = 0 → ShiftLeft r first last n = (r, last) ∧
      ShiftRight r first last n = (r, last)) ∧
    (0 < n → n < last - first → (ShiftLeft r first last n).2 = last - n ∧
      (ShiftRight r first last n).2 = last) ∧
    (last - first ≤ n → ShiftLeft r first last n = (r, first) ∧
      ShiftRight r first last n = (r, first)) := by
  refine ⟨?_, ?_, ?_⟩
  · intro h0
    subst h0
    constructor <;> rfl
  · intro h1 h2
    have hn0 : ¬ n = 0 := by omega
    have hge : ¬ last - first ≤ n := by omega
    constructor
    · rw [ShiftLeft, if_neg hn0, if_neg hge, CopySame, copySameLoop_snd]
      omega
    · rw [ShiftRight, if_neg hn0, if_neg hge]
  · intro hge
    by_cases h0 : n = 0
    · subst h0
      have hfl : first = last := by omega
      subst hfl
      constructor <;> rfl
    · constructor
      · rw [ShiftLeft, if_neg h0, if_pos hge]
      · rw [ShiftRight, if_neg h0, if_pos hge]

/-- C5.  `Partition` on a valid range: writing `m` for the returned
position, the result is all-true on `[first, m)` and all-false on
`[m, last)`, so `IsPartitioned` accepts the result with `m` the partition
point, and the multiset of the range's elements is unchanged. -/
theorem partition_spec (r : Nat → α) (first last : Nat) (p : α → Bool)
    (h : first ≤ last) :
    first ≤ (Partition r first last p).2 ∧ (Partition r first last p).2 ≤ last ∧
      (∀ k, first ≤ k → k < (Partition r first last p).2 →
        p ((Partition r first last p).1 k) = true) ∧
      (∀ k, (Partition r first last p).2 ≤ k → k < last →
        p ((Partition r first last p).1 k) = false) ∧
      IsPartitioned (Partition r first last p).1 first last p = true ∧
      (seg (Partition r first last p).1 first last : Multiset α) =
        (seg r first last : Multiset α) := by
  obtain ⟨hb1, hb2, hb3, hb4⟩ := findIfNotLoop_spec r p (last - first) first
  have hP : Partition r first last p =
      if FindIfNot r first last p = last then (r, FindIfNot r first last p)
      else partitionLoop p r (FindIfNot r first last p)
        (FindIfNot r first last p + 1) (last - (FindIfNot r first last p + 1)) := rfl
  rw [hP]
  set f := FindIfNot r first last p with hfdef
  have hfeq : f = findIfNotLoop r p first (last - first) := rfl
  rw [← hfeq] at hb1 hb2 hb3 hb4
  have hfl : f ≤ last := by omega
  by_cases hf : f = last
  · rw [if_pos hf]
    refine ⟨hb1, hfl, fun k hk1 hk2 => hb3 k hk1 hk2, fun k hk1 hk2 => by omega,
      ?_, rfl⟩
    exact isPartitioned_eq_true r p hb1 hfl
      (fun k hk1 hk2 => hb3 k hk1 hk2) (fun k hk1 hk2 => by omega)
  · rw [if_neg hf]
    have hflt : f < last := by omega
    have hfalse0 : ∀ k, f ≤ k → k < f + 1 → p (r k) = false := by
      intro k hk1 hk2
      have hk : k = f := by omega
      rw [hk]
      exact hb4 (by omega)
    obtain ⟨ih1, ih2, ih3, ih4, ih5, ih6, ih7⟩ :=
      partitionLoop_spec p (last - (f + 1)) r f (f + 1) (by omega) hfalse0
    have hend : (f + 1) + (last - (f + 1)) = last := by omega
    rw [hend] at ih2 ih4 ih6 ih7
    have htrue : ∀ k, first ≤ k →
        k < (partitionLoop p r f (f + 1) (last - (f + 1))).2 →
        p ((partitionLoop p r f (f + 1) (last - (f + 1))).1 k) = true := by
      intro k hk1 hk2
      rcases Nat.lt_or_ge k f with hk | hk
      · rw [ih5 k hk]
        exact hb3 k hk1 hk
      · exact ih3 k hk hk2
    refine ⟨by omega, ih2, htrue, ih4, ?_, ?_⟩
    · exact isPartitioned_eq_true _ p (by omega) ih2 htrue ih4
    · rw [Multiset.coe_eq_coe]
      have hsplit1 : seg (partitionLoop p r f (f + 1) (last - (f + 1))).1 first f ++
          seg (partitionLoop p r f (f + 1) (last - (f + 1))).1 f last =
          seg (partitionLoop p r f (f + 1) (last - (f + 1))).1 first last :=
        seg_append _ (by omega) hfl
      have hsplit2 : seg r first f ++ seg r f last = seg r first last :=
        seg_append r (by omega) hfl
      rw [← hsplit1, ← hsplit2, seg_congr (fun j hj1 hj2 => ih5 j hj2)]
      exact List.Perm.append_left _ ih7

/-- Witness for `partition_spec` on `[3, 1, 4, 1, 5]` with the oddness
predicate over `[0, 5)`: the partition point is `4`, `IsPartitioned` accepts
the result, and its multiset of elements is preserved. -/
theorem partition_spec_witness :
    IsPartitioned
        (Partition (ofl [3, 1, 4, 1, 5]) 0 5 (fun x => decide (x % 2 = 1))).1 0 5
        (fun x => decide (x % 2 = 1)) = true ∧
      (seg (Partition (ofl [3, 1, 4, 1, 5]) 0 5 (fun x => decide (x % 2 = 1))).1
          0 5 : Multiset Int) =
        (seg (ofl [3, 1, 4, 1, 5]) 0 5 : Multiset Int) :=
  ⟨(partition_spec (ofl [3, 1, 4, 1, 5]) 0 5 (fun x => decide (x % 2 = 1))
      (by decide)).2.2.2.2.1,
   (partition_spec (ofl [3, 1, 4, 1, 5]) 0 5 (fun x => decide (x % 2 = 1))
      (by decide)).2.2.2.2.2⟩

/-- Witness for `shift_spec` on concrete inputs: `[1,2,3,4,5]` shifted by
`2` over `[0,5)`, by `0`, and `[1,2,3]` shifted by `7` over `[0,3)`. -/
theorem shift_spec_witness :
    (ShiftLeft (ofl [1, 2, 3, 4, 5]) 0 5 2).2 = 5 - 2 ∧
      (ShiftRight (ofl [1, 2, 3, 4, 5]) 0 5 2).2 = 5 ∧
      ShiftLeft (ofl [1, 2, 3, 4, 5]) 0 5 0 = (ofl [1, 2, 3, 4, 5], 5) ∧
      ShiftRight (ofl [1, 2, 3]) 0 3 7 = (ofl [1, 2, 3], 0) :=
  ⟨((shift_spec (ofl [1, 2, 3, 4, 5]) 0 5 2 (by decide)).2.1 (by decide) (by decide)).1,
   ((shift_spec (ofl [1, 2, 3, 4, 5]) 0 5 2 (by decide)).2.1 (by decide) (by decide)).2,
   ((shift_spec (ofl [1, 2, 3, 4, 5]) 0 5 0 (by decide)).1 rfl).1,
   ((shift_spec (ofl [1, 2, 3]) 0 3 7 (by decide)).2.2 (by decide)).2⟩

end Cppgo
